import Mathlib

/-!
Shallow embedding of `src/textual/_resolve.py` (one-dimensional layout
resolution for the Textual terminal framework), together with proofs about
the claims of the specification.

Python `Fraction` values are modelled as `ℚ`; Python `int` as `ℤ`.
Code paths that raise a Python exception (`ZeroDivisionError` from
`Fraction(a, 0)`, or the `TypeError`/`AttributeError` reached when a `None`
placeholder leaks into arithmetic) are modelled by returning `none`:
`resolve` is `Option`-valued, where `none` means "this input raises".
-/

/-- Modelled from the spec: `Size` (from `textual.geometry`, not under
`src/`) is an integer `(width, height)` pair for container and viewport,
in grid cells. -/
structure Size where
  width : ℤ
  height : ℤ
deriving DecidableEq, Repr

/-- Modelled from the spec: `Scalar` (from `textual.css.scalar`, not under
`src/`) is a tagged value: a fixed cell count, a percentage of the
container, or a weighted fraction unit.  (`Auto` and the other variants
are not exercised by any claim.) -/
inductive Scalar where
  | cells (n : ℚ)
  | percent (p : ℚ)
  | fraction (w : ℚ)
deriving DecidableEq, Repr

/-- Modelled from the spec: the `is_fraction` flag of a scalar. -/
def Scalar.isFraction : Scalar → Bool
  | .fraction _ => true
  | _ => false

/-- Modelled from the spec: the numeric magnitude `scalar.value`. -/
def Scalar.value : Scalar → ℚ
  | .cells n => n
  | .percent p => p
  | .fraction w => w

/-- Modelled from the spec: `Scalar.resolve(container_size, viewport_size,
fraction_unit)` returns an exact rational length: a cell count resolves to
itself, a percentage resolves against the container, and a fraction weight
resolves to `weight × fraction_unit`.  The source calls the two-argument
form for non-fraction scalars; that corresponds to `fraction_unit = 1`. -/
def resolveScalar (scalar : Scalar) (size _viewport : Size) (fraction_unit : ℚ) : ℚ :=
  match scalar with
  | .cells n => n
  | .percent p => p * size.width / 100
  | .fraction w => w * fraction_unit

/-- Modelled from the spec: the `StyleSnapshot`/`RenderStyles` bundle read
by `resolve_fraction_unit` (from `textual.css.styles`, not under `src/`):
primary-axis scalars, optional min/max scalars per axis, and the overlay
flag (`"screen"` marks full-screen overlay items).  The source `cast`s
`styles.width` / `styles.height` to `Scalar`, so they are non-optional
here. -/
structure RenderStyles where
  width : Scalar
  height : Scalar
  min_width : Option Scalar
  max_width : Option Scalar
  min_height : Option Scalar
  max_height : Option Scalar
  overlay : String
deriving DecidableEq, Repr

/-- The `resolve_dimension` selector, `Literal["width", "height"]` in the
source. -/
inductive Dimension where
  | width
  | height
deriving DecidableEq, Repr

/-- Python `itertools.accumulate`: running partial sums (no initial value
is yielded; `acc` is the sum accumulated so far, `0` at the top call). -/
def accumulate (acc : ℚ) : List ℚ → List ℚ
  | [] => []
  | x :: xs => (acc + x) :: accumulate (acc + x) xs

/-- The generator `(value for fraction in resolved_fractions for value in
(fraction, fraction_gutter))` from line 108-111: each width followed by one
gutter value. -/
def interleave (gutter : ℚ) : List ℚ → List ℚ
  | [] => []
  | w :: ws => w :: gutter :: interleave gutter ws

/-- Python slice `l[::2]` (elements at even indices). -/
def evens {α : Type} : List α → List α
  | [] => []
  | [a] => [a]
  | a :: _ :: rest => a :: evens rest

/-- Python slice `l[1::2]` (elements at odd indices). -/
def odds {α : Type} : List α → List α
  | [] => []
  | _ :: rest => evens rest

/-- Lines 105-118 of `resolve`: build cumulative boundaries by
interleaving lengths with the gutter, accumulating, flooring each partial
sum, and pairing consecutive floored boundaries into
`(offset, length)` results. -/
def buildResults (resolved_fractions : List ℚ) (gutter : ℤ) : List (ℤ × ℤ) :=
  let offsets : List ℤ :=
    0 :: (accumulate 0 (interleave (gutter : ℚ) resolved_fractions)).map (fun q => ⌊q⌋)
  (List.zip (evens offsets) (odds offsets)).map (fun p => (p.1, p.2 - p.1))

/-- Lines 84-94 of `resolve`: the single in-order shrink pass over
`zip(map(Fraction, minimums), resolved_fractions)`.  Entered only when
`excess_space > 0`; each step removes `max(width/used_space, 1) ×
excess_space` down to the minimum, updates `used_space` and
`excess_space`, and breaks once `excess_space ≤ 0`.  `Fraction(width, 0)`
raises `ZeroDivisionError`, modelled as `none`. -/
def shrinkWithMins (total_space : ℚ) :
    List ℤ → List ℚ → ℚ → ℚ → Option (List ℚ)
  | [], widths, _, _ => some widths
  | _ :: _, [], _, _ => some []
  | minimum_width :: mins, width :: widths, used_space, excess_space =>
    if used_space = 0 then none
    else
      let remove_space := max (width / used_space) 1 * excess_space
      let updated_width := max (minimum_width : ℚ) (width - remove_space)
      let used_space' := used_space - width + updated_width
      let excess_space' := used_space' - total_space
      if excess_space' ≤ 0 then some (updated_width :: widths)
      else (shrinkWithMins total_space mins widths used_space' excess_space').map
        (updated_width :: ·)

/-- Lines 99-103 of `resolve`: the final proportional shrink with no
minimum protection, applied when `excess_space > 0`.  On an empty list the
comprehension runs no divisions; on a non-empty list `used_space = 0`
raises (`none`). -/
def finalShrink (resolved_fractions : List ℚ) (used_space excess_space : ℚ) :
    Option (List ℚ) :=
  if 0 < excess_space then
    if resolved_fractions.isEmpty then some resolved_fractions
    else if used_space = 0 then none
    else some (resolved_fractions.map fun width =>
      width - width / used_space * excess_space)
  else some resolved_fractions

/-- Lines 71-103 of `resolve`: the expand/shrink redistribution.
`used_space` is computed once (line 73) before the expand branch and is
deliberately not recomputed for the shrink branch, exactly as in the
source; the shrink-with-minimums loop recomputes `used_space` and
`excess_space` from the updated list before the final pass (lines 96-97),
while the path that skips the loop still sees the stale values. -/
def applyExpandShrink (resolved_fractions : List ℚ) (total_space : ℚ)
    (expand shrink : Bool) (minimums : Option (List ℤ)) : Option (List ℚ) :=
  if expand || shrink then
    let used_space := resolved_fractions.sum
    let afterExpand : Option (List ℚ) :=
      if expand then
        let remaining_space := total_space - used_space
        if 0 < remaining_space then
          if resolved_fractions.isEmpty then some resolved_fractions
          else if used_space = 0 then none
          else some (resolved_fractions.map fun width =>
            width + width / used_space * remaining_space)
        else some resolved_fractions
      else some resolved_fractions
    afterExpand.bind fun rf1 =>
      if shrink then
        match minimums with
        | some mins =>
          if 0 < used_space - total_space then
            (shrinkWithMins total_space mins rf1 used_space
                (used_space - total_space)).bind fun rf2 =>
              finalShrink rf2 rf2.sum (rf2.sum - total_space)
          else finalShrink rf1 used_space (used_space - total_space)
        | none => finalShrink rf1 used_space (used_space - total_space)
      else some rf1
  else some resolved_fractions

/-- Lines 41-48 of `resolve`: one entry of the `resolved` list: fraction
scalars are deferred (`None`), fixed scalars resolve immediately via the
two-argument `scalar.resolve(size, viewport)`. -/
def resolveEntry (size viewport : Size) (scalar : Scalar) : Scalar × Option ℚ :=
  if scalar.isFraction then (scalar, none)
  else (scalar, some (resolveScalar scalar size viewport 1))

/-- Lines 50-67 of `resolve`: compute the shared fraction unit from the
space left after the fixed entries (`space` is `total - total_gutter`) and
fill the deferred entries with `value × fraction_unit`.  When the total
fraction weight is zero while fraction scalars are present, the `None`
placeholders leak into the arithmetic of lines 73 or 105-112 and the
Python raises: that path is `none`. -/
def resolveFractions (resolved : List (Scalar × Option ℚ)) (space : ℚ) :
    Option (List ℚ) :=
  let total_fraction : ℚ :=
    (resolved.filterMap fun sf =>
      if sf.2 = none then some sf.1.value else none).sum
  if total_fraction ≠ 0 then
    let consumed : ℚ := (resolved.filterMap Prod.snd).sum
    let remaining : ℚ := max 0 (space - consumed)
    let fraction_unit : ℚ := remaining / total_fraction
    some (resolved.map fun sf =>
      match sf.2 with
      | some f => f
      | none => sf.1.value * fraction_unit)
  else
    if resolved.any fun sf => sf.2.isNone then none
    else some (resolved.filterMap Prod.snd)

/-- Lines 18-118: `resolve(dimensions, total, gutter, size, viewport, *,
expand, shrink, minimums)`:  classify and resolve the scalars, apply the
optional expand/shrink redistribution, then floor the accumulated
boundaries into `(offset, length)` pairs.  `none` models a raised Python
exception. -/
def resolve (dimensions : List Scalar) (total gutter : ℤ)
    (size viewport : Size) (expand shrink : Bool)
    (minimums : Option (List ℤ)) : Option (List (ℤ × ℤ)) :=
  let resolved : List (Scalar × Option ℚ) :=
    dimensions.map (resolveEntry size viewport)
  let total_gutter : ℤ := gutter * ((dimensions.length : ℤ) - 1)
  (resolveFractions resolved (((total - total_gutter : ℤ) : ℚ))).bind
    fun resolved_fractions =>
      (applyExpandShrink resolved_fractions (((total - total_gutter : ℤ) : ℚ))
        expand shrink minimums).map fun rf => buildResults rf gutter

/-- One item of the `resolve` working list in `resolve_fraction_unit`:
`(scalar, resolved min, resolved max)`. -/
abbrev FracItem : Type := Scalar × Option ℚ × Option ℚ

/-- One slot of the solver state: the item paired with its entry of the
`resolved` list (`none` = still unresolved).  The source keeps `resolve`
and `resolved` as two parallel lists indexed by `enumerate`; zipping them
into one list is an equivalent representation. -/
abbrev FracEntry : Type := FracItem × Option ℚ

/-- Lines 164-185: build the working list of
`(scalar, resolved min, resolved max)` triples for the selected dimension,
excluding styles with `overlay == "screen"`.  Min/max scalars are resolved
with the default `fraction_unit = Fraction(1)` of `resolve_scalar`. -/
def fractionItems (widget_styles : List RenderStyles) (size viewport_size : Size)
    (resolve_dimension : Dimension) : List FracItem :=
  match resolve_dimension with
  | .width =>
    (widget_styles.filter fun styles => styles.overlay ≠ "screen").map fun styles =>
      (styles.width,
        styles.min_width.map fun s => resolveScalar s size viewport_size 1,
        styles.max_width.map fun s => resolveScalar s size viewport_size 1)
  | .height =>
    (widget_styles.filter fun styles => styles.overlay ≠ "screen").map fun styles =>
      (styles.height,
        styles.min_height.map fun s => resolveScalar s size viewport_size 1,
        styles.max_height.map fun s => resolveScalar s size viewport_size 1)

/-- Line 187: `resolved = [None] * len(resolve)`, zipped with the items. -/
def initialEntries (items : List FracItem) : List FracEntry :=
  items.map fun it => (it, (none : Option ℚ))

/-- Line 188: `remaining_fraction = Fraction(sum(scalar.value for scalar,
_, _ in resolve))`. -/
def initialWeight (items : List FracItem) : ℚ :=
  (items.map fun it => it.1.value).sum

/-- Lines 196-206: the per-item check of one round.  The candidate unit is
fixed for the whole round; an unresolved item whose tentative resolution
falls below its min (or, failing that, above its max) is fixed to that
bound. -/
def fracDecide (size viewport_size : Size) (resolve_fraction : ℚ)
    (item : FracItem) : Option ℚ :=
  let resolved_scalar := resolveScalar item.1 size viewport_size resolve_fraction
  match item.2.1 with
  | some min_value =>
    if resolved_scalar < min_value then some min_value
    else
      match item.2.2 with
      | some max_value => if max_value < resolved_scalar then some max_value else none
      | none => none
  | none =>
    match item.2.2 with
    | some max_value => if max_value < resolved_scalar then some max_value else none
    | none => none

/-- Lines 191-206: one round of the fixed-point iteration: scan every
slot in order; each newly violated bound fixes the slot, subtracts the
bound from `remaining_space` and the item weight from
`remaining_fraction`, and sets the changed flag. -/
def fracRound (size viewport_size : Size) (resolve_fraction : ℚ) :
    List FracEntry → ℚ → ℚ → Bool → List FracEntry × ℚ × ℚ × Bool
  | [], remaining_space, remaining_fraction, changed =>
    ([], remaining_space, remaining_fraction, changed)
  | (item, some v) :: rest, remaining_space, remaining_fraction, changed =>
    let r := fracRound size viewport_size resolve_fraction rest
      remaining_space remaining_fraction changed
    ((item, some v) :: r.1, r.2)
  | (item, none) :: rest, remaining_space, remaining_fraction, changed =>
    match fracDecide size viewport_size resolve_fraction item with
    | some bound =>
      let r := fracRound size viewport_size resolve_fraction rest
        (remaining_space - bound) (remaining_fraction - item.1.value) true
      ((item, some bound) :: r.1, r.2)
    | none =>
      let r := fracRound size viewport_size resolve_fraction rest
        remaining_space remaining_fraction changed
      ((item, none) :: r.1, r.2)

/-- Lines 190-209: `while remaining_fraction > 0`, run a round with
candidate unit `remaining_space / remaining_fraction`, and stop when a
round fixes nothing.  The loop is fuelled; `resolve_fraction_unit` runs it
with fuel equal to the item count, which is proved sufficient
(the fixed point is reached in at most that many rounds). -/
def fracLoop (size viewport_size : Size) :
    ℕ → List FracEntry → ℚ → ℚ → List FracEntry × ℚ × ℚ
  | 0, entries, remaining_space, remaining_fraction =>
    (entries, remaining_space, remaining_fraction)
  | fuel + 1, entries, remaining_space, remaining_fraction =>
    if 0 < remaining_fraction then
      let r := fracRound size viewport_size (remaining_space / remaining_fraction)
        entries remaining_space remaining_fraction false
      if r.2.2.2 then fracLoop size viewport_size fuel r.1 r.2.1 r.2.2.1
      else (r.1, r.2.1, r.2.2.1)
    else (entries, remaining_space, remaining_fraction)

/-- Lines 121-215: `resolve_fraction_unit(widget_styles, size,
viewport_size, remaining_space, resolve_dimension)`.  Returns `1` when the
remaining space is zero or the style list is empty; otherwise runs the
fixed-point iteration and returns `remaining_space / remaining_fraction`,
falling back to the pre-loop remaining space when no unresolved weight is
left. -/
def resolve_fraction_unit (widget_styles : List RenderStyles)
    (size viewport_size : Size) (remaining_space : ℚ)
    (resolve_dimension : Dimension) : ℚ :=
  if remaining_space = 0 ∨ widget_styles = [] then 1
  else
    let initial_space := remaining_space
    let items := fractionItems widget_styles size viewport_size resolve_dimension
    let final := fracLoop size viewport_size items.length (initialEntries items)
      remaining_space (initialWeight items)
    if 0 < final.2.2 then final.2.1 / final.2.2 else initial_space

/-- Pointwise effect of one round on one slot: an unresolved slot whose
bound is violated at the round candidate becomes fixed; everything else is
unchanged.  Within a round every slot is checked against the same
candidate, so the round factors through this map. -/
def entryStep (size viewport_size : Size) (cand : ℚ) (e : FracEntry) : FracEntry :=
  match e.2 with
  | some v => (e.1, some v)
  | none =>
    match fracDecide size viewport_size cand e.1 with
    | some bound => (e.1, some bound)
    | none => (e.1, none)

/-- Space removed from the pool by one slot during a round. -/
def spaceDelta (size viewport_size : Size) (cand : ℚ) (e : FracEntry) : ℚ :=
  match e.2 with
  | some _ => 0
  | none => (fracDecide size viewport_size cand e.1).getD 0

/-- Weight removed from the pool by one slot during a round. -/
def weightDelta (size viewport_size : Size) (cand : ℚ) (e : FracEntry) : ℚ :=
  match e.2 with
  | some _ => 0
  | none =>
    match fracDecide size viewport_size cand e.1 with
    | some _ => e.1.1.value
    | none => 0

/-- Whether a slot gets newly fixed during a round with this candidate. -/
def isNewFix (size viewport_size : Size) (cand : ℚ) (e : FracEntry) : Bool :=
  e.2.isNone && (fracDecide size viewport_size cand e.1).isSome

/-- One round equals the pointwise map together with commutative sums of
the per-slot space/weight removals: the in-order mutation of the source
loop does not feed back into the per-item checks. -/
theorem fracRound_eq (size viewport_size : Size) (cand : ℚ) (es : List FracEntry)
    (sp wt : ℚ) (ch : Bool) :
    fracRound size viewport_size cand es sp wt ch =
      (es.map (entryStep size viewport_size cand),
        sp - (es.map (spaceDelta size viewport_size cand)).sum,
        wt - (es.map (weightDelta size viewport_size cand)).sum,
        ch || es.any (isNewFix size viewport_size cand)) := by
  induction es generalizing sp wt ch with
  | nil => simp [fracRound]
  | cons e rest ih =>
    obtain ⟨item, st⟩ := e
    cases st with
    | some v =>
      simp [fracRound, entryStep, spaceDelta, weightDelta, isNewFix, ih, sub_sub]
    | none =>
      cases hd : fracDecide size viewport_size cand item with
      | some bound =>
        simp [fracRound, hd, entryStep, spaceDelta, weightDelta, isNewFix, ih, sub_sub]
      | none =>
        simp [fracRound, hd, entryStep, spaceDelta, weightDelta, isNewFix, ih, sub_sub]

/-- Number of still-unresolved slots. -/
def unresolvedCount (es : List FracEntry) : ℕ :=
  es.countP fun e => e.2.isNone

/-- Total fraction weight of the still-unresolved slots. -/
def unresolvedSum (es : List FracEntry) : ℚ :=
  (es.map fun e => if e.2.isNone then e.1.1.value else 0).sum

/-- A round removes exactly the weight of the newly fixed slots from the
unresolved weight. -/
theorem unresolvedSum_map_entryStep (size viewport_size : Size) (cand : ℚ)
    (es : List FracEntry) :
    unresolvedSum (es.map (entryStep size viewport_size cand)) =
      unresolvedSum es - (es.map (weightDelta size viewport_size cand)).sum := by
  induction es with
  | nil => simp [unresolvedSum]
  | cons e rest ih =>
    obtain ⟨item, st⟩ := e
    cases st with
    | some v => simp [unresolvedSum, entryStep, weightDelta] at ih ⊢; linarith
    | none =>
      cases hd : fracDecide size viewport_size cand item with
      | some bound =>
        simp [unresolvedSum, entryStep, weightDelta, hd] at ih ⊢; linarith
      | none =>
        simp [unresolvedSum, entryStep, weightDelta, hd] at ih ⊢; linarith

/-- A round resolves exactly the newly fixed slots. -/
theorem unresolvedCount_map_entryStep (size viewport_size : Size) (cand : ℚ)
    (es : List FracEntry) :
    unresolvedCount (es.map (entryStep size viewport_size cand)) +
        es.countP (isNewFix size viewport_size cand) = unresolvedCount es := by
  induction es with
  | nil => simp [unresolvedCount]
  | cons e rest ih =>
    obtain ⟨item, st⟩ := e
    cases st with
    | some v => simpa [unresolvedCount, entryStep, isNewFix, List.countP_cons] using ih
    | none =>
      cases hd : fracDecide size viewport_size cand item with
      | some bound =>
        simp [unresolvedCount, entryStep, isNewFix, hd, List.countP_cons] at ih ⊢
        omega
      | none =>
        simp [unresolvedCount, entryStep, isNewFix, hd, List.countP_cons] at ih ⊢
        omega

/-- Fully resolved lists carry no unresolved weight. -/
theorem unresolvedSum_eq_zero_of_count (es : List FracEntry)
    (h : unresolvedCount es = 0) : unresolvedSum es = 0 := by
  induction es with
  | nil => rfl
  | cons e rest ih =>
    rw [unresolvedCount, List.countP_cons] at h
    rw [unresolvedSum, List.map_cons, List.sum_cons]
    cases hst : e.2 with
    | some v =>
      simp only [hst, Option.isNone_some, Bool.false_eq_true, if_false, Nat.add_zero] at h
      simp only [hst, Option.isNone_some, Bool.false_eq_true, if_false, zero_add]
      exact ih h
    | none =>
      simp only [hst, Option.isNone_none, if_pos rfl, if_true] at h
      omega

/-- The loop is inert once the unresolved weight is non-positive. -/
theorem fracLoop_of_nonpos (size viewport_size : Size) (fuel : ℕ)
    (es : List FracEntry) (sp wt : ℚ) (h : ¬0 < wt) :
    fracLoop size viewport_size fuel es sp wt = (es, sp, wt) := by
  cases fuel with
  | zero => rfl
  | succ n => simp [fracLoop, h]

/-- The loop preserves the invariant that the running `remaining_fraction`
equals the total weight of the still-unresolved slots. -/
theorem fracLoop_inv (size viewport_size : Size) (fuel : ℕ) :
    ∀ (es : List FracEntry) (sp wt : ℚ), wt = unresolvedSum es →
      (fracLoop size viewport_size fuel es sp wt).2.2 =
        unresolvedSum (fracLoop size viewport_size fuel es sp wt).1 := by
  induction fuel with
  | zero => intro es sp wt h; exact h
  | succ n ih =>
    intro es sp wt h
    rw [fracLoop]
    by_cases hwt : 0 < wt
    · rw [if_pos hwt]
      rw [fracRound_eq]
      have hinv : wt - (es.map (weightDelta size viewport_size (sp / wt))).sum =
          unresolvedSum (es.map (entryStep size viewport_size (sp / wt))) := by
        rw [unresolvedSum_map_entryStep, h]
      by_cases hch : (es.any (isNewFix size viewport_size (sp / wt))) = true
      · simp only [hch, Bool.false_or, if_pos rfl, if_true]
        exact ih _ _ _ hinv
      · simp only [Bool.false_or]
        rw [if_neg (by simpa using hch)]
        exact hinv
    · rw [if_neg hwt]
      exact h

/-- Each continuing round strictly decreases the number of unresolved
slots, so `n` units of fuel reach the fixed point for `n` slots: adding
any extra fuel cannot change the outcome. -/
theorem fracLoop_stable (size viewport_size : Size) (fuel : ℕ) :
    ∀ (extra : ℕ) (es : List FracEntry) (sp wt : ℚ),
      wt = unresolvedSum es → unresolvedCount es ≤ fuel →
      fracLoop size viewport_size (fuel + extra) es sp wt =
        fracLoop size viewport_size fuel es sp wt := by
  induction fuel with
  | zero =>
    intro extra es sp wt hinv hcount
    have hwt : wt = 0 := by
      rw [hinv]
      exact unresolvedSum_eq_zero_of_count es (Nat.le_zero.mp hcount)
    rw [fracLoop_of_nonpos _ _ _ _ _ _ (by rw [hwt]; exact lt_irrefl 0)]
    rfl
  | succ n ih =>
    intro extra es sp wt hinv hcount
    have hstep : n + 1 + extra = (n + extra) + 1 := by omega
    rw [hstep, fracLoop, fracLoop]
    by_cases hwt : 0 < wt
    · rw [if_pos hwt, if_pos hwt]
      rw [fracRound_eq]
      by_cases hch : (es.any (isNewFix size viewport_size (sp / wt))) = true
      · simp only [hch, Bool.false_or, if_true]
        apply ih
        · rw [unresolvedSum_map_entryStep, hinv]
        · have hc := unresolvedCount_map_entryStep size viewport_size (sp / wt) es
          have hpos : 0 < es.countP (isNewFix size viewport_size (sp / wt)) :=
            List.countP_pos_iff.mpr (List.any_eq_true.mp hch)
          omega
      · simp only [Bool.false_or]
        rw [if_neg (by simpa using hch), if_neg (by simpa using hch)]
    · rw [if_neg hwt, if_neg hwt]

/-- Permuted lists agree on `any`. -/
theorem perm_any_eq {α : Type} (f : α → Bool) {l1 l2 : List α} (h : l1.Perm l2) :
    l1.any f = l2.any f := by
  induction h with
  | nil => rfl
  | cons x _ ih => simp [ih]
  | swap x y l => simp [Bool.or_left_comm]
  | trans _ _ ih1 ih2 => rw [ih1, ih2]

/-- The loop's final remaining space and remaining weight are invariant
under permutation of the slots: every round checks all slots against one
shared candidate, so the order of the slots never matters. -/
theorem fracLoop_perm (size viewport_size : Size) (fuel : ℕ) :
    ∀ {es1 es2 : List FracEntry} (sp wt : ℚ), es1.Perm es2 →
      (fracLoop size viewport_size fuel es1 sp wt).1.Perm
          (fracLoop size viewport_size fuel es2 sp wt).1 ∧
        (fracLoop size viewport_size fuel es1 sp wt).2 =
          (fracLoop size viewport_size fuel es2 sp wt).2 := by
  induction fuel with
  | zero => intro es1 es2 sp wt h; exact ⟨h, rfl⟩
  | succ n ih =>
    intro es1 es2 sp wt h
    rw [fracLoop, fracLoop]
    by_cases hwt : 0 < wt
    · rw [if_pos hwt, if_pos hwt]
      rw [fracRound_eq, fracRound_eq]
      have hmap := h.map (entryStep size viewport_size (sp / wt))
      have hsp : (es1.map (spaceDelta size viewport_size (sp / wt))).sum =
          (es2.map (spaceDelta size viewport_size (sp / wt))).sum :=
        (h.map (spaceDelta size viewport_size (sp / wt))).sum_eq
      have hwd : (es1.map (weightDelta size viewport_size (sp / wt))).sum =
          (es2.map (weightDelta size viewport_size (sp / wt))).sum :=
        (h.map (weightDelta size viewport_size (sp / wt))).sum_eq
      have hany : es1.any (isNewFix size viewport_size (sp / wt)) =
          es2.any (isNewFix size viewport_size (sp / wt)) :=
        perm_any_eq _ h
      rw [hsp, hwd, hany]
      by_cases hch : (es2.any (isNewFix size viewport_size (sp / wt))) = true
      · simp only [hch, Bool.false_or, if_true]
        exact ih _ _ hmap
      · simp only [Bool.false_or]
        rw [if_neg (by simpa using hch), if_neg (by simpa using hch)]
        exact ⟨hmap, rfl⟩
    · rw [if_neg hwt, if_neg hwt]
      exact ⟨h, rfl⟩

/-- Initially the unresolved weight is the total weight. -/
theorem unresolvedSum_initialEntries (items : List FracItem) :
    unresolvedSum (initialEntries items) = initialWeight items := by
  induction items with
  | nil => rfl
  | cons it rest ih =>
    simp [unresolvedSum, initialEntries, initialWeight] at ih ⊢
    exact ih

/-- Initially every slot is unresolved. -/
theorem unresolvedCount_initialEntries (items : List FracItem) :
    unresolvedCount (initialEntries items) = items.length := by
  induction items with
  | nil => rfl
  | cons it rest ih =>
    simp only [initialEntries, List.map_cons, unresolvedCount, List.countP_cons,
      List.length_cons] at ih ⊢
    simp only [Option.isNone_none, if_pos rfl, if_true]
    omega

/-- A fully clamped state carries no unresolved weight. -/
theorem unresolvedSum_eq_zero_of_all_some (es : List FracEntry)
    (h : ∀ e ∈ es, e.2.isSome = true) : unresolvedSum es = 0 := by
  induction es with
  | nil => rfl
  | cons e rest ih =>
    have he := h e (List.mem_cons_self e rest)
    rw [unresolvedSum, List.map_cons, List.sum_cons]
    rw [Option.isSome_iff_exists] at he
    obtain ⟨v, hv⟩ := he
    simp only [hv, Option.isNone_some, Bool.false_eq_true, if_false, zero_add]
    exact ih fun e' he' => h e' (List.mem_cons_of_mem e he')

/-- C3: for every input of `N` items, the fixed-point iteration of
`resolve_fraction_unit` reaches its fixed point within `N` rounds: running
the loop with any extra fuel beyond the item count returns exactly the
same state, because every round either fixes at least one previously
unresolved item or is the last round. -/
theorem fraction_iteration_converges_within_item_count
    (widget_styles : List RenderStyles) (size viewport_size : Size)
    (remaining_space : ℚ) (resolve_dimension : Dimension) (extra : ℕ) :
    fracLoop size viewport_size
        ((fractionItems widget_styles size viewport_size resolve_dimension).length + extra)
        (initialEntries (fractionItems widget_styles size viewport_size resolve_dimension))
        remaining_space
        (initialWeight (fractionItems widget_styles size viewport_size resolve_dimension)) =
      fracLoop size viewport_size
        (fractionItems widget_styles size viewport_size resolve_dimension).length
        (initialEntries (fractionItems widget_styles size viewport_size resolve_dimension))
        remaining_space
        (initialWeight (fractionItems widget_styles size viewport_size resolve_dimension)) := by
  apply fracLoop_stable
  · exact (unresolvedSum_initialEntries _).symm
  · rw [unresolvedCount_initialEntries]

/-- C4: `resolve_fraction_unit` returns exactly `1` whenever the remaining
space is zero or the supplied list of widget styles is empty, for every
container size, viewport size and axis selector. -/
theorem fraction_unit_default_one (widget_styles : List RenderStyles)
    (size viewport_size : Size) (remaining_space : ℚ)
    (resolve_dimension : Dimension)
    (h : remaining_space = 0 ∨ widget_styles = []) :
    resolve_fraction_unit widget_styles size viewport_size remaining_space
      resolve_dimension = 1 := by
  simp only [resolve_fraction_unit]
  exact if_pos h

/-- Witness for C4 at a concrete input: one fraction-weighted style with
zero remaining space. -/
theorem fraction_unit_default_one_witness :
    ((0 : ℚ) = 0 ∨
        ([⟨.fraction 1, .fraction 1, none, none, none, none, "none"⟩] :
          List RenderStyles) = []) ∧
      resolve_fraction_unit
        [⟨.fraction 1, .fraction 1, none, none, none, none, "none"⟩]
        ⟨80, 24⟩ ⟨80, 24⟩ 0 .width = 1 :=
  ⟨Or.inl rfl, fraction_unit_default_one _ _ _ _ _ (Or.inl rfl)⟩

/-- C10: when every supplied style has `overlay = "screen"`, the list is
non-empty and the remaining space is non-zero, `resolve_fraction_unit`
returns the remaining space itself (not the documented default `1`): the
overlay filter empties the working list, the unresolved weight starts at
zero, the iteration never runs, and the all-clamped fallback branch is
taken. -/
theorem fraction_unit_all_overlay_screen (widget_styles : List RenderStyles)
    (size viewport_size : Size) (remaining_space : ℚ)
    (resolve_dimension : Dimension)
    (hspace : remaining_space ≠ 0) (hne : widget_styles ≠ [])
    (hover : ∀ styles ∈ widget_styles, styles.overlay = "screen") :
    resolve_fraction_unit widget_styles size viewport_size remaining_space
      resolve_dimension = remaining_space := by
  have hitems : fractionItems widget_styles size viewport_size resolve_dimension = [] := by
    cases resolve_dimension <;> simpa [fractionItems] using hover
  simp only [resolve_fraction_unit]
  rw [if_neg (by simp [hspace, hne])]
  simp [hitems, initialEntries, initialWeight, fracLoop]

/-- Witness for C10 at a concrete input: two overlay-screen styles and
remaining space `5`, where the function returns `5`. -/
theorem fraction_unit_all_overlay_screen_witness :
    ((5 : ℚ) ≠ 0 ∧
        ([⟨.fraction 1, .fraction 1, none, none, none, none, "screen"⟩,
          ⟨.fraction 2, .fraction 2, none, none, none, none, "screen"⟩] :
          List RenderStyles) ≠ [] ∧
        (∀ styles ∈ ([⟨.fraction 1, .fraction 1, none, none, none, none, "screen"⟩,
          ⟨.fraction 2, .fraction 2, none, none, none, none, "screen"⟩] :
          List RenderStyles), styles.overlay = "screen")) ∧
      resolve_fraction_unit
        [⟨.fraction 1, .fraction 1, none, none, none, none, "screen"⟩,
          ⟨.fraction 2, .fraction 2, none, none, none, none, "screen"⟩]
        ⟨80, 24⟩ ⟨80, 24⟩ 5 .width = 5 := by
  have hov : ∀ styles ∈ ([⟨.fraction 1, .fraction 1, none, none, none, none, "screen"⟩,
      ⟨.fraction 2, .fraction 2, none, none, none, none, "screen"⟩] :
        List RenderStyles), styles.overlay = "screen" := by
    intro styles hs
    simp only [List.mem_cons, List.not_mem_nil, or_false] at hs
    rcases hs with rfl | rfl
    · rfl
    · rfl
  exact ⟨⟨by norm_num, by simp, hov⟩,
    fraction_unit_all_overlay_screen _ _ _ _ _ (by norm_num) (by simp) hov⟩

/-- C2: whenever every item has been clamped by the end of the iteration
of `resolve_fraction_unit` (every slot of the final state is resolved),
the unresolved weight has reached zero exactly and the function returns
the pre-loop remaining-space value.  The concrete single-item instance of
the claim (weight 1, resolved minimum 20, remaining space 10, returned
unit 10) is the witness below. -/
theorem fraction_unit_all_clamped_returns_initial
    (widget_styles : List RenderStyles) (size viewport_size : Size)
    (remaining_space : ℚ) (resolve_dimension : Dimension)
    (hspace : remaining_space ≠ 0) (hne : widget_styles ≠ [])
    (hall : ∀ e ∈ (fracLoop size viewport_size
        (fractionItems widget_styles size viewport_size resolve_dimension).length
        (initialEntries (fractionItems widget_styles size viewport_size resolve_dimension))
        remaining_space
        (initialWeight (fractionItems widget_styles size viewport_size
          resolve_dimension))).1, e.2.isSome = true) :
    resolve_fraction_unit widget_styles size viewport_size remaining_space
      resolve_dimension = remaining_space := by
  simp only [resolve_fraction_unit]
  rw [if_neg (by simp [hspace, hne])]
  have hinv := fracLoop_inv size viewport_size
    (fractionItems widget_styles size viewport_size resolve_dimension).length
    (initialEntries (fractionItems widget_styles size viewport_size resolve_dimension))
    remaining_space
    (initialWeight (fractionItems widget_styles size viewport_size resolve_dimension))
    (unresolvedSum_initialEntries _).symm
  rw [hinv, unresolvedSum_eq_zero_of_all_some _ hall]
  simp

/-- C8: the fraction unit returned by `resolve_fraction_unit` is invariant
under permutation of the widget styles: within each round every
still-unresolved item is checked against the same candidate unit computed
at the start of the round, so permuting the input yields the same
result. -/
theorem fraction_unit_perm_invariant (ws1 ws2 : List RenderStyles)
    (size viewport_size : Size) (remaining_space : ℚ)
    (resolve_dimension : Dimension) (hperm : ws1.Perm ws2) :
    resolve_fraction_unit ws1 size viewport_size remaining_space resolve_dimension =
      resolve_fraction_unit ws2 size viewport_size remaining_space resolve_dimension := by
  have hnil : ws1 = [] ↔ ws2 = [] := by
    constructor
    · intro h
      apply List.length_eq_zero.mp
      rw [← hperm.length_eq, h, List.length_nil]
    · intro h
      apply List.length_eq_zero.mp
      rw [hperm.length_eq, h, List.length_nil]
  by_cases hguard : remaining_space = 0 ∨ ws1 = []
  · have hguard2 : remaining_space = 0 ∨ ws2 = [] := by
      rcases hguard with h | h
      · exact Or.inl h
      · exact Or.inr (hnil.mp h)
    simp only [resolve_fraction_unit]
    rw [if_pos hguard, if_pos hguard2]
  · have hguard2 : ¬(remaining_space = 0 ∨ ws2 = []) := by
      intro h
      rcases h with h | h
      · exact hguard (Or.inl h)
      · exact hguard (Or.inr (hnil.mpr h))
    simp only [resolve_fraction_unit]
    rw [if_neg hguard, if_neg hguard2]
    have hitems : (fractionItems ws1 size viewport_size resolve_dimension).Perm
        (fractionItems ws2 size viewport_size resolve_dimension) := by
      cases resolve_dimension
      · exact (hperm.filter _).map _
      · exact (hperm.filter _).map _
    have hlen : (fractionItems ws2 size viewport_size resolve_dimension).length =
        (fractionItems ws1 size viewport_size resolve_dimension).length :=
      hitems.length_eq.symm
    have hweight : initialWeight (fractionItems ws2 size viewport_size resolve_dimension) =
        initialWeight (fractionItems ws1 size viewport_size resolve_dimension) :=
      ((hitems.map _).sum_eq).symm
    rw [hlen, hweight]
    have h2 := (fracLoop_perm size viewport_size
      (fractionItems ws1 size viewport_size resolve_dimension).length
      remaining_space
      (initialWeight (fractionItems ws1 size viewport_size resolve_dimension))
      (hitems.map fun it => (it, (none : Option ℚ)))).2
    rw [show initialEntries (fractionItems ws1 size viewport_size resolve_dimension) =
        (fractionItems ws1 size viewport_size resolve_dimension).map
          (fun it => (it, (none : Option ℚ))) from rfl,
      show initialEntries (fractionItems ws2 size viewport_size resolve_dimension) =
        (fractionItems ws2 size viewport_size resolve_dimension).map
          (fun it => (it, (none : Option ℚ))) from rfl]
    rw [h2]

/-- Witness for C8 at a concrete input: swapping two styles (one with a
max bound, one without) leaves the returned unit unchanged. -/
theorem fraction_unit_perm_invariant_witness :
    (([⟨.fraction 1, .fraction 1, none, some (.cells 2), none, none, "none"⟩,
        ⟨.fraction 1, .fraction 1, none, none, none, none, "none"⟩] :
        List RenderStyles).Perm
      [⟨.fraction 1, .fraction 1, none, none, none, none, "none"⟩,
        ⟨.fraction 1, .fraction 1, none, some (.cells 2), none, none, "none"⟩]) ∧
      resolve_fraction_unit
          [⟨.fraction 1, .fraction 1, none, some (.cells 2), none, none, "none"⟩,
            ⟨.fraction 1, .fraction 1, none, none, none, none, "none"⟩]
          ⟨80, 24⟩ ⟨80, 24⟩ 10 .width =
        resolve_fraction_unit
          [⟨.fraction 1, .fraction 1, none, none, none, none, "none"⟩,
            ⟨.fraction 1, .fraction 1, none, some (.cells 2), none, none, "none"⟩]
          ⟨80, 24⟩ ⟨80, 24⟩ 10 .width :=
  ⟨List.Perm.swap _ _ _, fraction_unit_perm_invariant _ _ _ _ _ _ (List.Perm.swap _ _ _)⟩

/-- Witness for C2 at the claim's concrete input: one fraction item of
weight 1 with resolved minimum 20 and remaining space 10.  The item is
clamped to 20, the unresolved weight reaches zero (final state
`([(item, some 20)], -10, 0)`), and the returned unit is the pre-loop
remaining space 10. -/
theorem fraction_unit_all_clamped_returns_initial_witness :
    fracLoop ⟨80, 24⟩ ⟨80, 24⟩
        (fractionItems
          [⟨.fraction 1, .fraction 1, some (.cells 20), none, none, none, "none"⟩]
          ⟨80, 24⟩ ⟨80, 24⟩ .width).length
        (initialEntries (fractionItems
          [⟨.fraction 1, .fraction 1, some (.cells 20), none, none, none, "none"⟩]
          ⟨80, 24⟩ ⟨80, 24⟩ .width))
        10
        (initialWeight (fractionItems
          [⟨.fraction 1, .fraction 1, some (.cells 20), none, none, none, "none"⟩]
          ⟨80, 24⟩ ⟨80, 24⟩ .width)) =
        ([((Scalar.fraction 1, some 20, none), some 20)], -10, 0) ∧
      resolve_fraction_unit
        [⟨.fraction 1, .fraction 1, some (.cells 20), none, none, none, "none"⟩]
        ⟨80, 24⟩ ⟨80, 24⟩ 10 .width = 10 := by
  have hitems : fractionItems
      [⟨.fraction 1, .fraction 1, some (.cells 20), none, none, none, "none"⟩]
      ⟨80, 24⟩ ⟨80, 24⟩ .width = [(Scalar.fraction 1, some (20 : ℚ), none)] := rfl
  have hstate : fracLoop ⟨80, 24⟩ ⟨80, 24⟩
      (fractionItems
        [⟨.fraction 1, .fraction 1, some (.cells 20), none, none, none, "none"⟩]
        ⟨80, 24⟩ ⟨80, 24⟩ .width).length
      (initialEntries (fractionItems
        [⟨.fraction 1, .fraction 1, some (.cells 20), none, none, none, "none"⟩]
        ⟨80, 24⟩ ⟨80, 24⟩ .width))
      10
      (initialWeight (fractionItems
        [⟨.fraction 1, .fraction 1, some (.cells 20), none, none, none, "none"⟩]
        ⟨80, 24⟩ ⟨80, 24⟩ .width)) =
      ([((Scalar.fraction 1, some 20, none), some 20)], -10, 0) := by
    rw [hitems]
    norm_num [initialEntries, initialWeight, fracLoop, fracRound, fracDecide,
      resolveScalar, Scalar.value]
  refine ⟨hstate, ?_⟩
  refine fraction_unit_all_clamped_returns_initial _ _ _ _ _ (by norm_num) (by simp) ?_
  rw [hstate]
  intro e he
  simp only [List.mem_singleton] at he
  rw [he]
  rfl

/-- C6: for three equal-weight fraction scalars with gutter 0 and total
10, `resolve` returns lengths that sum to exactly 10, split
floor-consistently: the cells get 3, 3 and 4. -/
theorem resolve_three_equal_fractions :
    resolve [.fraction 1, .fraction 1, .fraction 1] 10 0 ⟨80, 24⟩ ⟨80, 24⟩
        false false none = some [(0, 3), (3, 3), (6, 4)] ∧
      (resolve [.fraction 1, .fraction 1, .fraction 1] 10 0 ⟨80, 24⟩ ⟨80, 24⟩
        false false none).map (fun r => (r.map Prod.snd).sum) = some 10 := by
  have h : resolve [.fraction 1, .fraction 1, .fraction 1] 10 0 ⟨80, 24⟩ ⟨80, 24⟩
      false false none = some [(0, 3), (3, 3), (6, 4)] := by
    have h1 : ⌊(10:ℚ)/3⌋ = 3 := by rw [Int.floor_eq_iff]; norm_num
    have h2 : ⌊(20:ℚ)/3⌋ = 6 := by rw [Int.floor_eq_iff]; norm_num
    have h3 : ⌊(10:ℚ)⌋ = 10 := by rw [Int.floor_eq_iff]; norm_num
    norm_num [resolve, resolveEntry, resolveFractions, Scalar.isFraction, Scalar.value,
      resolveScalar, applyExpandShrink, buildResults, interleave, accumulate, evens, odds,
      h1, h2, h3, List.filterMap_cons, List.filterMap_nil]
  exact ⟨h, by rw [h]; rfl⟩

/-- C7: the shrink pass with minimums processes items once in input order:
with `used_space ≠ 0` each step removes `max(width/used_space, 1) ×
excess_space`, floors the new length at the minimum, updates `used_space`
and `excess_space`, and stops once the excess is non-positive; and on the
claim's instance (cells `[80, 20]`, minimums `[50, 10]`, total 60,
gutter 0) `resolve` reduces cell 1 to 50 before cell 2 drops below 10,
returning lengths `[50, 10]` that sum to 60. -/
theorem resolve_shrink_with_minimums (total_space : ℚ) (minimum_width : ℤ)
    (mins : List ℤ) (width : ℚ) (widths : List ℚ) (used_space excess_space : ℚ)
    (hused : used_space ≠ 0) :
    resolve [.cells 80, .cells 20] 60 0 ⟨80, 24⟩ ⟨80, 24⟩ false true (some [50, 10])
        = some [(0, 50), (50, 10)] ∧
      shrinkWithMins total_space (minimum_width :: mins) (width :: widths)
          used_space excess_space =
        (if used_space - width +
              max (minimum_width : ℚ) (width - max (width / used_space) 1 * excess_space) -
              total_space ≤ 0 then
          some (max (minimum_width : ℚ)
            (width - max (width / used_space) 1 * excess_space) :: widths)
        else
          (shrinkWithMins total_space mins widths
              (used_space - width +
                max (minimum_width : ℚ) (width - max (width / used_space) 1 * excess_space))
              (used_space - width +
                max (minimum_width : ℚ) (width - max (width / used_space) 1 * excess_space) -
                total_space)).map
            (max (minimum_width : ℚ)
              (width - max (width / used_space) 1 * excess_space) :: ·)) := by
  constructor
  · have h1 : ⌊(50:ℚ)⌋ = 50 := by rw [Int.floor_eq_iff]; norm_num
    have h2 : ⌊(60:ℚ)⌋ = 60 := by rw [Int.floor_eq_iff]; norm_num
    norm_num [resolve, resolveEntry, resolveFractions, Scalar.isFraction, Scalar.value,
      resolveScalar, applyExpandShrink, shrinkWithMins, finalShrink, buildResults,
      interleave, accumulate, evens, odds, h1, h2, List.filterMap_cons, List.filterMap_nil]
  · rw [shrinkWithMins, if_neg hused]

/-- Witness for C7: the second step of the claim's instance (minimum 10,
width 20, used space 70, excess 10) has non-zero used space, and the
theorem yields the claim's resolved lengths `[(0, 50), (50, 10)]`. -/
theorem resolve_shrink_with_minimums_witness :
    (70 : ℚ) ≠ 0 ∧
      resolve [.cells 80, .cells 20] 60 0 ⟨80, 24⟩ ⟨80, 24⟩ false true (some [50, 10])
        = some [(0, 50), (50, 10)] :=
  ⟨by norm_num,
    (resolve_shrink_with_minimums 60 10 [] 20 [] 70 10 (by norm_num)).1⟩

/-- The shrink-with-minimums pass never divides by zero when the
available space is non-negative: at every division the running excess is
positive, so `used_space = total_space + excess > 0`. -/
theorem shrinkWithMins_isSome (total_space : ℚ) (mins : List ℤ)
    (widths : List ℚ) (used excess : ℚ) (hts : 0 ≤ total_space)
    (hex : 0 < excess) (heq : excess = used - total_space) :
    (shrinkWithMins total_space mins widths used excess).isSome = true := by
  induction mins generalizing widths used excess with
  | nil => cases widths <;> simp [shrinkWithMins]
  | cons m ms ih =>
    cases widths with
    | nil => simp [shrinkWithMins]
    | cons w ws =>
      have hused : used ≠ 0 := by
        intro h
        rw [heq, h] at hex
        linarith
      simp only [shrinkWithMins, if_neg hused]
      by_cases h2 : used - w + max (m : ℚ) (w - max (w / used) 1 * excess) -
          total_space ≤ 0
      · rw [if_pos h2]
        rfl
      · rw [if_neg h2]
        obtain ⟨r, hr⟩ := Option.isSome_iff_exists.mp
          (ih ws (used - w + max (m : ℚ) (w - max (w / used) 1 * excess))
            (used - w + max (m : ℚ) (w - max (w / used) 1 * excess) - total_space)
            (by linarith) rfl)
        rw [hr]
        rfl

/-- The final proportional shrink never divides by zero when the excess
equals used space minus a non-negative total space. -/
theorem finalShrink_isSome (resolved_fractions : List ℚ) (used excess : ℚ)
    (h : 0 < excess → used ≠ 0) :
    (finalShrink resolved_fractions used excess).isSome = true := by
  rw [finalShrink]
  by_cases hex : 0 < excess
  · rw [if_pos hex]
    by_cases hemp : resolved_fractions.isEmpty
    · rw [if_pos hemp]
      rfl
    · rw [if_neg hemp, if_neg (h hex)]
      rfl
  · rw [if_neg hex]
    rfl

/-- The expand/shrink redistribution never divides by zero provided the
available space `total_space` is non-negative and the resolved widths
either already cover it or are all positive. -/
theorem applyExpandShrink_isSome (resolved_fractions : List ℚ) (total_space : ℚ)
    (expand shrink : Bool) (minimums : Option (List ℤ))
    (hts : 0 ≤ total_space)
    (hsum : total_space ≤ resolved_fractions.sum ∨ ∀ x ∈ resolved_fractions, 0 < x) :
    (applyExpandShrink resolved_fractions total_space expand shrink minimums).isSome
      = true := by
  simp only [applyExpandShrink]
  by_cases hflag : (expand || shrink) = true
  · rw [if_pos hflag]
    have hexpand : (if expand = true then
        if 0 < total_space - resolved_fractions.sum then
          if resolved_fractions.isEmpty then some resolved_fractions
          else if resolved_fractions.sum = 0 then none
          else some (resolved_fractions.map fun width =>
            width + width / resolved_fractions.sum * (total_space - resolved_fractions.sum))
        else some resolved_fractions
      else some resolved_fractions).isSome = true := by
      by_cases hexp : expand = true
      · rw [if_pos hexp]
        by_cases hrem : 0 < total_space - resolved_fractions.sum
        · rw [if_pos hrem]
          rcases hsum with hcov | hpos
          · exact absurd hrem (by linarith)
          · by_cases hemp : resolved_fractions.isEmpty
            · rw [if_pos hemp]
              rfl
            · rw [if_neg hemp, if_neg (by
                have : 0 < resolved_fractions.sum :=
                  List.sum_pos resolved_fractions hpos
                    (by simpa [List.isEmpty_iff] using hemp)
                linarith)]
              rfl
        · rw [if_neg hrem]
          rfl
      · rw [if_neg hexp]
        rfl
    rw [Option.isSome_iff_exists] at hexpand
    obtain ⟨rf1, hrf1⟩ := hexpand
    rw [hrf1, Option.some_bind]
    by_cases hshr : shrink = true
    · rw [if_pos hshr]
      cases minimums with
      | none =>
        exact finalShrink_isSome _ _ _ fun hex => by intro h0; rw [h0] at hex; linarith
      | some mins =>
        simp only []
        by_cases hex : 0 < resolved_fractions.sum - total_space
        · rw [if_pos hex]
          have hsws := shrinkWithMins_isSome total_space mins rf1
            resolved_fractions.sum (resolved_fractions.sum - total_space) hts hex rfl
          rw [Option.isSome_iff_exists] at hsws
          obtain ⟨rf2, hrf2⟩ := hsws
          rw [hrf2, Option.some_bind]
          exact finalShrink_isSome _ _ _ fun hex2 => by intro h0; rw [h0] at hex2; linarith
        · rw [if_neg hex]
          exact finalShrink_isSome _ _ _ fun hex2 => by intro h0; rw [h0] at hex2; linarith
    · rw [if_neg hshr]
      rfl
  · rw [if_neg hflag]
    rfl

/-- The fraction-weight extraction over the resolved entries picks exactly
the values of the fraction scalars. -/
theorem weight_filterMap (size viewport : Size) (dims : List Scalar) :
    ((dims.map (resolveEntry size viewport)).filterMap fun sf =>
        if sf.2 = none then some sf.1.value else none) =
      dims.filterMap fun s => if s.isFraction then some s.value else none := by
  induction dims with
  | nil => rfl
  | cons s rest ih =>
    by_cases hf : s.isFraction = true
    · simp [resolveEntry, hf, ih]
    · simp [resolveEntry, hf, ih]

/-- With positive fraction weights and at least one fraction scalar, the
total fraction weight is positive. -/
theorem fracWeight_pos (dims : List Scalar)
    (hfrac : ∀ s ∈ dims, s.isFraction = true → 0 < s.value)
    (hex : ∃ s ∈ dims, s.isFraction = true) :
    0 < (dims.filterMap fun s => if s.isFraction then some s.value else none).sum := by
  apply List.sum_pos
  · intro x hx
    rw [List.mem_filterMap] at hx
    obtain ⟨a, ha, hfa⟩ := hx
    by_cases hf : a.isFraction = true
    · rw [if_pos hf] at hfa
      exact Option.some.inj hfa ▸ hfrac a ha hf
    · rw [if_neg hf] at hfa
      cases hfa
  · obtain ⟨s, hs, hf⟩ := hex
    apply List.ne_nil_of_mem (a := s.value)
    rw [List.mem_filterMap]
    exact ⟨s, hs, by rw [if_pos hf]⟩

/-- Without fraction scalars no placeholder is left unresolved. -/
theorem no_none_of_no_fraction (size viewport : Size) (dims : List Scalar)
    (h : ∀ s ∈ dims, s.isFraction = false) :
    ((dims.map (resolveEntry size viewport)).any fun sf => sf.2.isNone) = false := by
  induction dims with
  | nil => rfl
  | cons s rest ih =>
    have hs := h s (List.mem_cons_self s rest)
    simp only [List.map_cons, List.any_cons, resolveEntry, hs, Bool.false_eq_true,
      if_false, Option.isNone_some, Bool.false_or]
    exact ih fun s' hs' => h s' (List.mem_cons_of_mem s hs')

/-- With positive fixed resolutions every immediately resolved entry is
positive. -/
theorem fixed_entries_pos (size viewport : Size) (dims : List Scalar)
    (hfix : ∀ s ∈ dims, s.isFraction = false → 0 < resolveScalar s size viewport 1) :
    ∀ x ∈ (dims.map (resolveEntry size viewport)).filterMap Prod.snd, 0 < x := by
  intro x hx
  rw [List.mem_filterMap] at hx
  obtain ⟨sf, hsf, hsnd⟩ := hx
  rw [List.mem_map] at hsf
  obtain ⟨s, hs, hentry⟩ := hsf
  by_cases hf : s.isFraction = true
  · rw [← hentry] at hsnd
    rw [resolveEntry, if_pos hf] at hsnd
    cases hsnd
  · rw [← hentry] at hsnd
    rw [resolveEntry, if_neg hf] at hsnd
    have := hfix s hs (by simpa using hf)
    exact Option.some.inj hsnd ▸ this

/-- Splitting the filled list sum into fixed consumption plus total
fraction weight times the unit. -/
theorem sum_fillFractions (l : List (Scalar × Option ℚ)) (u : ℚ) :
    (l.map fun sf =>
        match sf.2 with
        | some f => f
        | none => sf.1.value * u).sum =
      (l.filterMap Prod.snd).sum +
        ((l.filterMap fun sf =>
          if sf.2 = none then some sf.1.value else none).sum) * u := by
  induction l with
  | nil => simp
  | cons sf rest ih =>
    obtain ⟨s, o⟩ := sf
    cases o with
    | some f =>
      simp only [List.map_cons, List.sum_cons, List.filterMap_cons, ih]
      simp
      ring
    | none =>
      simp only [List.map_cons, List.sum_cons, List.filterMap_cons, ih]
      simp
      ring

/-- When the total fraction weight is positive, the fill stage succeeds
and tops the widths up to at least the available space. -/
theorem resolveFractions_fraction_branch (l : List (Scalar × Option ℚ)) (space : ℚ)
    (htf : 0 < (l.filterMap fun sf => if sf.2 = none then some sf.1.value else none).sum) :
    resolveFractions l space =
        some (l.map fun sf =>
          match sf.2 with
          | some f => f
          | none => sf.1.value *
              (max 0 (space - (l.filterMap Prod.snd).sum) /
                (l.filterMap fun sf =>
                  if sf.2 = none then some sf.1.value else none).sum)) ∧
      space ≤ (l.map fun sf =>
          match sf.2 with
          | some f => f
          | none => sf.1.value *
              (max 0 (space - (l.filterMap Prod.snd).sum) /
                (l.filterMap fun sf =>
                  if sf.2 = none then some sf.1.value else none).sum)).sum := by
  constructor
  · simp only [resolveFractions]
    rw [if_pos (ne_of_gt htf)]
  · rw [sum_fillFractions]
    rw [mul_div_assoc', mul_comm, ← mul_div_assoc', div_self (ne_of_gt htf), mul_one]
    have hmax : space - (l.filterMap Prod.snd).sum ≤
        max 0 (space - (l.filterMap Prod.snd).sum) := le_max_right _ _
    linarith

/-- When there is no fraction weight and no unresolved placeholder, the
fill stage returns the fixed resolutions unchanged. -/
theorem resolveFractions_fixed_branch (l : List (Scalar × Option ℚ)) (space : ℚ)
    (htf : (l.filterMap fun sf => if sf.2 = none then some sf.1.value else none).sum = 0)
    (hnone : (l.any fun sf => sf.2.isNone) = false) :
    resolveFractions l space = some (l.filterMap Prod.snd) := by
  simp only [resolveFractions]
  rw [if_neg (by simp [htf]), if_neg (by simp [hnone])]

/-- C1 (amended): `resolve` raises no error — returns a result — for every
input in which every fraction scalar has positive weight, every fixed
scalar resolves to a positive length, and the total space is at least the
total gutter; the claim fails as originally stated because the expand and
shrink branches divide by a zero `used_space` on degenerate inputs (see
the counterexample). -/
theorem resolve_no_error_amended (dimensions : List Scalar) (total gutter : ℤ)
    (size viewport : Size) (expand shrink : Bool) (minimums : Option (List ℤ))
    (hfrac : ∀ s ∈ dimensions, s.isFraction = true → 0 < s.value)
    (hfix : ∀ s ∈ dimensions, s.isFraction = false →
      0 < resolveScalar s size viewport 1)
    (hts : gutter * ((dimensions.length : ℤ) - 1) ≤ total) :
    (resolve dimensions total gutter size viewport expand shrink minimums).isSome
      = true := by
  simp only [resolve]
  have hts' : (0:ℚ) ≤ ((total - gutter * ((dimensions.length : ℤ) - 1) : ℤ) : ℚ) := by
    have h0 : (0:ℤ) ≤ total - gutter * ((dimensions.length : ℤ) - 1) := by linarith
    exact_mod_cast h0
  have hcases : ∃ rf, resolveFractions (dimensions.map (resolveEntry size viewport))
      (((total - gutter * ((dimensions.length : ℤ) - 1) : ℤ) : ℚ)) = some rf ∧
      ((((total - gutter * ((dimensions.length : ℤ) - 1) : ℤ) : ℚ)) ≤ rf.sum ∨
        ∀ x ∈ rf, 0 < x) := by
    by_cases hex : ∃ s ∈ dimensions, s.isFraction = true
    · have htf : 0 < ((dimensions.map (resolveEntry size viewport)).filterMap fun sf =>
          if sf.2 = none then some sf.1.value else none).sum := by
        rw [weight_filterMap]
        exact fracWeight_pos dimensions hfrac hex
      obtain ⟨heq, hsum⟩ := resolveFractions_fraction_branch
        (dimensions.map (resolveEntry size viewport))
        (((total - gutter * ((dimensions.length : ℤ) - 1) : ℤ) : ℚ)) htf
      exact ⟨_, heq, Or.inl hsum⟩
    · push_neg at hex
      have hnof : ∀ s ∈ dimensions, s.isFraction = false := by
        intro s hs
        simpa using hex s hs
      have htf : ((dimensions.map (resolveEntry size viewport)).filterMap fun sf =>
          if sf.2 = none then some sf.1.value else none).sum = 0 := by
        rw [weight_filterMap]
        have hnil : (dimensions.filterMap fun s =>
            if s.isFraction then some s.value else none) = [] := by
          rw [List.filterMap_eq_nil_iff]
          intro s hs
          rw [if_neg (by simp [hnof s hs])]
        rw [hnil]
        rfl
      refine ⟨_, resolveFractions_fixed_branch _ _ htf
        (no_none_of_no_fraction size viewport dimensions hnof),
        Or.inr (fixed_entries_pos size viewport dimensions hfix)⟩
  obtain ⟨rf, hrf, hsum⟩ := hcases
  rw [hrf, Option.some_bind]
  obtain ⟨rf2, hrf2⟩ := Option.isSome_iff_exists.mp
    (applyExpandShrink_isSome rf _ expand shrink minimums hts' hsum)
  rw [hrf2]
  rfl

/-- Counterexample to C1 as stated: a single fixed scalar of width 0 with
`expand=True` and positive remaining space reaches
`Fraction(width, used_space)` with `used_space = 0`, raising
`ZeroDivisionError` in the expand branch (modelled as `none`), so
`resolve` is not error-free on every input. -/
theorem resolve_no_error_cex :
    resolve [.cells 0] 10 0 ⟨80, 24⟩ ⟨80, 24⟩ true false none = none := by
  norm_num [resolve, resolveEntry, resolveFractions, Scalar.isFraction, Scalar.value,
    resolveScalar, applyExpandShrink, List.filterMap_cons, List.filterMap_nil]

/-- Witness for the amended C1 at a concrete input exercising both expand
and shrink with a fraction and a fixed scalar. -/
theorem resolve_no_error_amended_witness :
    (∀ s ∈ [Scalar.cells 2, Scalar.fraction 1], s.isFraction = true → 0 < s.value) ∧
      (∀ s ∈ [Scalar.cells 2, Scalar.fraction 1], s.isFraction = false →
        0 < resolveScalar s ⟨80, 24⟩ ⟨80, 24⟩ 1) ∧
      (1 : ℤ) * (([Scalar.cells 2, Scalar.fraction 1].length : ℤ) - 1) ≤ 10 ∧
      (resolve [.cells 2, .fraction 1] 10 1 ⟨80, 24⟩ ⟨80, 24⟩ true true
        (some [1, 1])).isSome = true := by
  have h1 : ∀ s ∈ [Scalar.cells 2, Scalar.fraction 1], s.isFraction = true →
      0 < s.value := by
    intro s hs
    simp only [List.mem_cons, List.not_mem_nil, or_false] at hs
    rcases hs with rfl | rfl
    · intro h
      cases h
    · intro h
      norm_num [Scalar.value]
  have h2 : ∀ s ∈ [Scalar.cells 2, Scalar.fraction 1], s.isFraction = false →
      0 < resolveScalar s ⟨80, 24⟩ ⟨80, 24⟩ 1 := by
    intro s hs
    simp only [List.mem_cons, List.not_mem_nil, or_false] at hs
    rcases hs with rfl | rfl
    · intro h
      norm_num [resolveScalar]
    · intro h
      cases h
  have h3 : (1 : ℤ) * (([Scalar.cells 2, Scalar.fraction 1].length : ℤ) - 1) ≤ 10 := by
    norm_num
  exact ⟨h1, h2, h3,
    resolve_no_error_amended [.cells 2, .fraction 1] 10 1 ⟨80, 24⟩ ⟨80, 24⟩ true true
      (some [1, 1]) h1 h2 h3⟩

/-- Specification-side normal form for all-fixed integer resolutions:
each scalar occupies its exact length, and each offset advances by the
previous length plus the gutter. -/
def intResults (lengths : List ℤ) (gutter : ℤ) (offset : ℤ) : List (ℤ × ℤ) :=
  match lengths with
  | [] => []
  | l :: rest => (offset, l) :: intResults rest gutter (offset + l + gutter)

/-- The pairing of floored boundaries collapses to `intResults` when all
the widths are integers: every partial sum is an integer, so flooring is
exact. -/
theorem pairUp_int (g : ℤ) (L : List ℤ) :
    ∀ c : ℤ,
      (List.zip
          (evens (c :: (accumulate (c : ℚ)
            (interleave (g : ℚ) (L.map fun n => (n : ℚ)))).map fun q => ⌊q⌋))
          (odds (c :: (accumulate (c : ℚ)
            (interleave (g : ℚ) (L.map fun n => (n : ℚ)))).map fun q => ⌊q⌋))).map
        (fun p => (p.1, p.2 - p.1)) = intResults L g c := by
  induction L with
  | nil => intro c; rfl
  | cons a rest ih =>
    intro c
    have hacc : accumulate (c : ℚ) (interleave (g : ℚ) ((a :: rest).map fun n => (n : ℚ)))
        = ((c : ℚ) + a) :: (((c : ℚ) + a) + g) ::
          accumulate (((c : ℚ) + a) + g)
            (interleave (g : ℚ) (rest.map fun n => (n : ℚ))) := rfl
    have hcast : ((c : ℚ) + a) + g = ((c + a + g : ℤ) : ℚ) := by push_cast; ring
    have hf1 : ⌊(c : ℚ) + (a : ℚ)⌋ = c + a := by
      rw [show (c : ℚ) + (a : ℚ) = ((c + a : ℤ) : ℚ) from by push_cast; ring]
      exact Int.floor_intCast _
    have hf2 : ⌊((c : ℚ) + a) + g⌋ = c + a + g := by
      rw [hcast]
      exact Int.floor_intCast _
    rw [hacc, hcast]
    simp only [List.map_cons]
    rw [show ⌊((c + a + g : ℤ) : ℚ)⌋ = c + a + g from Int.floor_intCast _, hf1]
    simp only [evens, odds, List.zip_cons_cons, List.map_cons]
    have ih2 := ih (c + a + g)
    simp only [odds] at ih2
    rw [show c + a - c = a from by ring]
    rw [intResults]
    congr 1

/-- The lengths of the normal form are exactly the input lengths. -/
theorem intResults_lengths (g : ℤ) (L : List ℤ) :
    ∀ c : ℤ, (intResults L g c).map Prod.snd = L := by
  induction L with
  | nil => intro c; rfl
  | cons a rest ih =>
    intro c
    simp only [intResults, List.map_cons, ih]

/-- Adjacent results satisfy the offset recurrence
`offset[i+1] = offset[i] + length[i] + gutter`. -/
theorem intResults_chain (g : ℤ) (L : List ℤ) :
    ∀ c : ℤ, List.Chain' (fun p q => q.1 = p.1 + p.2 + g) (intResults L g c) := by
  induction L with
  | nil => intro c; exact List.chain'_nil
  | cons a rest ih =>
    intro c
    cases rest with
    | nil => exact List.chain'_singleton _
    | cons b bs =>
      rw [intResults, intResults]
      exact List.chain'_cons.mpr ⟨rfl, by rw [← intResults]; exact ih (c + a + g)⟩

/-- When every length plus the gutter is positive, the offsets strictly
increase. -/
theorem intResults_strict (g : ℤ) (L : List ℤ) (hpos : ∀ n ∈ L, 0 < n + g) :
    ∀ c : ℤ, List.Chain' (fun p q : ℤ × ℤ => p.1 < q.1) (intResults L g c) := by
  induction L with
  | nil => intro c; exact List.chain'_nil
  | cons a rest ih =>
    intro c
    cases rest with
    | nil => exact List.chain'_singleton _
    | cons b bs =>
      rw [intResults, intResults]
      refine List.chain'_cons.mpr ⟨?_, ?_⟩
      · have := hpos a (List.mem_cons_self a _)
        omega
      · rw [← intResults]
        exact ih (fun n hn => hpos n (List.mem_cons_of_mem a hn)) (c + a + g)

/-- All-fixed dimension lists resolve entrywise to their immediate
resolutions. -/
theorem fixed_filterMap_eq (size viewport : Size) (dims : List Scalar)
    (h : ∀ s ∈ dims, s.isFraction = false) :
    (dims.map (resolveEntry size viewport)).filterMap Prod.snd =
      dims.map fun s => resolveScalar s size viewport 1 := by
  induction dims with
  | nil => rfl
  | cons s rest ih =>
    have hs := h s (List.mem_cons_self s rest)
    simp only [List.map_cons, List.filterMap_cons, resolveEntry, hs, Bool.false_eq_true,
      if_false]
    rw [ih fun s' hs' => h s' (List.mem_cons_of_mem s hs')]

/-- On integer widths the boundary flooring is exact. -/
theorem buildResults_int (L : List ℤ) (g : ℤ) :
    buildResults (L.map fun n => (n : ℚ)) g = intResults L g 0 := by
  have h := pairUp_int g L 0
  rw [Int.cast_zero] at h
  simpa [buildResults] using h

/-- C5 (amended): for every list of all-fixed scalars whose resolutions
are the integers `L` and fit within the total space, the default
`resolve` call returns exactly those lengths, with offsets satisfying
`offset[i+1] = offset[i] + length[i] + gutter` for every adjacent pair,
and the offsets are strictly increasing provided every length plus gutter
is positive.  (As originally stated the claim fails: non-integer
resolutions are floored, and zero-length cells with zero gutter repeat an
offset — see the counterexample.) -/
theorem resolve_all_fixed_amended (dimensions : List Scalar) (L : List ℤ)
    (total gutter : ℤ) (size viewport : Size)
    (hnof : ∀ s ∈ dimensions, s.isFraction = false)
    (hint : (dimensions.map fun s => resolveScalar s size viewport 1) =
      L.map fun n => (n : ℚ))
    (hfit : L.sum + gutter * ((dimensions.length : ℤ) - 1) ≤ total) :
    resolve dimensions total gutter size viewport false false none =
        some (intResults L gutter 0) ∧
      (intResults L gutter 0).map Prod.snd = L ∧
      List.Chain' (fun p q => q.1 = p.1 + p.2 + gutter) (intResults L gutter 0) ∧
      ((∀ n ∈ L, 0 < n + gutter) →
        List.Chain' (fun p q : ℤ × ℤ => p.1 < q.1) (intResults L gutter 0)) := by
  refine ⟨?_, intResults_lengths gutter L 0, intResults_chain gutter L 0,
    fun hp => intResults_strict gutter L hp 0⟩
  simp only [resolve]
  have htf : ((dimensions.map (resolveEntry size viewport)).filterMap fun sf =>
      if sf.2 = none then some sf.1.value else none).sum = 0 := by
    rw [weight_filterMap]
    have hnil : (dimensions.filterMap fun s =>
        if s.isFraction then some s.value else none) = [] := by
      rw [List.filterMap_eq_nil_iff]
      intro s hs
      rw [if_neg (by simp [hnof s hs])]
    rw [hnil]
    rfl
  rw [resolveFractions_fixed_branch _ _ htf
    (no_none_of_no_fraction size viewport dimensions hnof), Option.some_bind]
  rw [fixed_filterMap_eq size viewport dimensions hnof, hint]
  rw [show applyExpandShrink (L.map fun n => (n : ℚ))
      (((total - gutter * ((dimensions.length : ℤ) - 1) : ℤ) : ℚ)) false false none =
      some (L.map fun n => (n : ℚ)) from by simp [applyExpandShrink]]
  rw [Option.map_some', buildResults_int]

/-- Counterexample to C5 as stated: the all-fixed list `[0 cells, 25%]`
in a container of width 10 fits in total 10, resolves exactly to
`[0, 5/2]`, yet `resolve` returns lengths `[0, 2]` (the `5/2` is floored,
not exact) with offsets `[0, 0]` that are not strictly increasing. -/
theorem resolve_all_fixed_cex :
    resolve [.cells 0, .percent 25] 10 0 ⟨10, 10⟩ ⟨10, 10⟩ false false none
        = some [(0, 0), (0, 2)] ∧
      resolveScalar (.percent 25) ⟨10, 10⟩ ⟨10, 10⟩ 1 = 5 / 2 ∧
      ¬ List.Chain' (fun p q : ℤ × ℤ => p.1 < q.1) [((0 : ℤ), (0 : ℤ)), (0, 2)] := by
  refine ⟨?_, by norm_num [resolveScalar], by simp [List.chain'_cons]⟩
  have h1 : ⌊(0 : ℚ)⌋ = 0 := by rw [Int.floor_eq_iff]; norm_num
  have h2 : ⌊(5 : ℚ) / 2⌋ = 2 := by rw [Int.floor_eq_iff]; norm_num
  norm_num [resolve, resolveEntry, resolveFractions, Scalar.isFraction, Scalar.value,
    resolveScalar, applyExpandShrink, buildResults, interleave, accumulate, evens, odds,
    h1, h2, List.filterMap_cons, List.filterMap_nil]

/-- Witness for the amended C5: cells `[2, 3]` with gutter 1 and total 10
resolve exactly to `[(0, 2), (3, 3)]`. -/
theorem resolve_all_fixed_amended_witness :
    (∀ s ∈ [Scalar.cells 2, Scalar.cells 3], s.isFraction = false) ∧
      ([Scalar.cells 2, Scalar.cells 3].map fun s =>
        resolveScalar s ⟨80, 24⟩ ⟨80, 24⟩ 1) = [(2 : ℤ), 3].map (fun n => (n : ℚ)) ∧
      ([(2 : ℤ), 3].sum + 1 * (([Scalar.cells 2, Scalar.cells 3].length : ℤ) - 1) ≤ 10) ∧
      resolve [.cells 2, .cells 3] 10 1 ⟨80, 24⟩ ⟨80, 24⟩ false false none =
        some (intResults [2, 3] 1 0) := by
  have h1 : ∀ s ∈ [Scalar.cells 2, Scalar.cells 3], s.isFraction = false := by
    intro s hs
    simp only [List.mem_cons, List.not_mem_nil, or_false] at hs
    rcases hs with rfl | rfl
    · rfl
    · rfl
  have h2 : ([Scalar.cells 2, Scalar.cells 3].map fun s =>
      resolveScalar s ⟨80, 24⟩ ⟨80, 24⟩ 1) = [(2 : ℤ), 3].map (fun n => (n : ℚ)) := by
    norm_num [resolveScalar]
  have h3 : ([(2 : ℤ), 3].sum + 1 * (([Scalar.cells 2, Scalar.cells 3].length : ℤ) - 1)
      ≤ 10) := by norm_num
  exact ⟨h1, h2, h3,
    (resolve_all_fixed_amended [.cells 2, .cells 3] [2, 3] 10 1 ⟨80, 24⟩ ⟨80, 24⟩
      h1 h2 h3).1⟩

/-- The shrink-with-minimums pass keeps all widths non-negative when the
minimums and input widths are non-negative: every updated width is floored
at its minimum. -/
theorem shrinkWithMins_nonneg (total_space : ℚ) (mins : List ℤ)
    (widths : List ℚ) (used excess : ℚ) (out : List ℚ)
    (h : shrinkWithMins total_space mins widths used excess = some out)
    (hmins : ∀ m ∈ mins, (0 : ℤ) ≤ m) (hws : ∀ x ∈ widths, 0 ≤ x) :
    ∀ x ∈ out, 0 ≤ x := by
  induction mins generalizing widths used excess out with
  | nil =>
    rw [shrinkWithMins] at h
    cases h
    exact hws
  | cons m ms ih =>
    cases widths with
    | nil =>
      rw [shrinkWithMins] at h
      cases h
      intro x hx
      cases hx
    | cons w ws =>
      by_cases hused : used = 0
      · rw [shrinkWithMins, if_pos hused] at h
        cases h
      · simp only [shrinkWithMins, if_neg hused] at h
        have hm : (0 : ℚ) ≤ (m : ℤ) := by
          exact_mod_cast hmins m (List.mem_cons_self m ms)
        have hupd : 0 ≤ max (m : ℚ) (w - max (w / used) 1 * excess) :=
          le_trans hm (le_max_left _ _)
        by_cases h2 : used - w + max (m : ℚ) (w - max (w / used) 1 * excess) -
            total_space ≤ 0
        · rw [if_pos h2] at h
          cases h
          intro x hx
          rcases List.mem_cons.mp hx with rfl | hx2
          · exact hupd
          · exact hws x (List.mem_cons_of_mem w hx2)
        · rw [if_neg h2] at h
          obtain ⟨out2, hout2, rfl⟩ := Option.map_eq_some'.mp h
          intro x hx
          rcases List.mem_cons.mp hx with rfl | hx2
          · exact hupd
          · exact ih ws _ _ out2 hout2
              (fun m' hm' => hmins m' (List.mem_cons_of_mem m hm'))
              (fun x' hx' => hws x' (List.mem_cons_of_mem w hx'))
              x hx2

/-- The final proportional shrink keeps all widths non-negative when the
excess is the overhang of the used space over a non-negative total
space. -/
theorem finalShrink_nonneg (resolved_fractions : List ℚ) (used excess : ℚ)
    (out : List ℚ)
    (h : finalShrink resolved_fractions used excess = some out)
    (hrel : 0 ≤ used - excess) (hws : ∀ x ∈ resolved_fractions, 0 ≤ x) :
    ∀ x ∈ out, 0 ≤ x := by
  rw [finalShrink] at h
  by_cases hex : 0 < excess
  · rw [if_pos hex] at h
    by_cases hemp : resolved_fractions.isEmpty
    · rw [if_pos hemp] at h
      cases h
      exact hws
    · rw [if_neg hemp] at h
      by_cases hused : used = 0
      · rw [if_pos hused] at h
        cases h
      · rw [if_neg hused] at h
        cases h
        intro x hx
        rw [List.mem_map] at hx
        obtain ⟨w, hw, rfl⟩ := hx
        have hwpos := hws w hw
        have husedpos : 0 < used := by
          rcases lt_trichotomy used 0 with hlt | heq | hgt
          · linarith
          · exact absurd heq hused
          · exact hgt
        have : w - w / used * excess = w * (used - excess) / used := by
          field_simp
          ring
        rw [this]
        positivity
  · rw [if_neg hex] at h
    cases h
    exact hws

/-- The whole expand/shrink redistribution keeps all widths non-negative
when the available space and the minimums are non-negative. -/
theorem applyExpandShrink_nonneg (resolved_fractions : List ℚ) (total_space : ℚ)
    (expand shrink : Bool) (minimums : Option (List ℤ)) (out : List ℚ)
    (h : applyExpandShrink resolved_fractions total_space expand shrink minimums
      = some out)
    (hts : 0 ≤ total_space) (hws : ∀ x ∈ resolved_fractions, 0 ≤ x)
    (hmins : ∀ m ∈ minimums.getD [], (0 : ℤ) ≤ m) :
    ∀ x ∈ out, 0 ≤ x := by
  simp only [applyExpandShrink] at h
  by_cases hflag : (expand || shrink) = true
  · rw [if_pos hflag] at h
    have hsumnn : 0 ≤ resolved_fractions.sum := List.sum_nonneg hws
    have hafter : ∀ rf1, (if expand = true then
        if 0 < total_space - resolved_fractions.sum then
          if resolved_fractions.isEmpty then some resolved_fractions
          else if resolved_fractions.sum = 0 then none
          else some (resolved_fractions.map fun width =>
            width + width / resolved_fractions.sum *
              (total_space - resolved_fractions.sum))
        else some resolved_fractions
      else some resolved_fractions) = some rf1 → ∀ x ∈ rf1, 0 ≤ x := by
      intro rf1 h1
      by_cases hexp : expand = true
      · rw [if_pos hexp] at h1
        by_cases hrem : 0 < total_space - resolved_fractions.sum
        · rw [if_pos hrem] at h1
          by_cases hemp : resolved_fractions.isEmpty
          · rw [if_pos hemp] at h1
            cases h1
            exact hws
          · rw [if_neg hemp] at h1
            by_cases hz : resolved_fractions.sum = 0
            · rw [if_pos hz] at h1
              cases h1
            · rw [if_neg hz] at h1
              cases h1
              intro x hx
              rw [List.mem_map] at hx
              obtain ⟨w, hw, rfl⟩ := hx
              have hwnn := hws w hw
              have hspos : 0 < resolved_fractions.sum :=
                lt_of_le_of_ne hsumnn (Ne.symm hz)
              have hrw : w + w / resolved_fractions.sum *
                  (total_space - resolved_fractions.sum) =
                  w * total_space / resolved_fractions.sum := by
                field_simp
                ring
              rw [hrw]
              positivity
        · rw [if_neg hrem] at h1
          cases h1
          exact hws
      · rw [if_neg hexp] at h1
        cases h1
        exact hws
    obtain ⟨rf1, hrf1, hbind⟩ := Option.bind_eq_some.mp h
    have hrf1nn := hafter rf1 hrf1
    by_cases hshr : shrink = true
    · rw [if_pos hshr] at hbind
      cases minimums with
      | none =>
        exact finalShrink_nonneg rf1 _ _ out hbind (by linarith) hrf1nn
      | some mins =>
        simp only [] at hbind
        have hminsnn : ∀ m ∈ mins, (0 : ℤ) ≤ m := by simpa using hmins
        by_cases hex : 0 < resolved_fractions.sum - total_space
        · rw [if_pos hex] at hbind
          obtain ⟨rf2, hrf2, hfin⟩ := Option.bind_eq_some.mp hbind
          have hrf2nn := shrinkWithMins_nonneg total_space mins rf1
            resolved_fractions.sum (resolved_fractions.sum - total_space) rf2 hrf2
            hminsnn hrf1nn
          exact finalShrink_nonneg rf2 _ _ out hfin (by linarith) hrf2nn
        · rw [if_neg hex] at hbind
          exact finalShrink_nonneg rf1 _ _ out hbind (by linarith) hrf1nn
    · rw [if_neg hshr] at hbind
      cases hbind
      exact hrf1nn
  · rw [if_neg hflag] at h
    cases h
    exact hws

/-- The first component of a resolved entry is the scalar itself. -/
theorem resolveEntry_fst (size viewport : Size) (s : Scalar) :
    (resolveEntry size viewport s).1 = s := by
  simp only [resolveEntry]
  split
  · rfl
  · rfl

/-- The fill stage outputs non-negative widths when all scalar values and
fixed resolutions are non-negative. -/
theorem resolveFractions_nonneg (dims : List Scalar) (size viewport : Size)
    (space : ℚ) (rf : List ℚ)
    (h : resolveFractions (dims.map (resolveEntry size viewport)) space = some rf)
    (hval : ∀ s ∈ dims, 0 ≤ s.value)
    (hfixv : ∀ s ∈ dims, 0 ≤ resolveScalar s size viewport 1) :
    ∀ x ∈ rf, 0 ≤ x := by
  simp only [resolveFractions] at h
  by_cases htf : ((dims.map (resolveEntry size viewport)).filterMap fun sf =>
      if sf.2 = none then some sf.1.value else none).sum ≠ 0
  · rw [if_pos htf] at h
    have htfnn : 0 ≤ ((dims.map (resolveEntry size viewport)).filterMap fun sf =>
        if sf.2 = none then some sf.1.value else none).sum := by
      apply List.sum_nonneg
      intro x hx
      rw [List.mem_filterMap] at hx
      obtain ⟨sf, hsf, hfa⟩ := hx
      rw [List.mem_map] at hsf
      obtain ⟨s, hs, rfl⟩ := hsf
      by_cases h2 : (resolveEntry size viewport s).2 = none
      · rw [if_pos h2, resolveEntry_fst] at hfa
        exact Option.some.inj hfa ▸ hval s hs
      · rw [if_neg h2] at hfa
        cases hfa
    have htfpos : 0 < ((dims.map (resolveEntry size viewport)).filterMap fun sf =>
        if sf.2 = none then some sf.1.value else none).sum :=
      lt_of_le_of_ne htfnn (Ne.symm htf)
    cases h
    intro x hx
    rw [List.mem_map] at hx
    obtain ⟨sf, hsf, rfl⟩ := hx
    rw [List.mem_map] at hsf
    obtain ⟨s, hs, rfl⟩ := hsf
    by_cases hfr : s.isFraction = true
    · have hsf2 : resolveEntry size viewport s = (s, none) := by
        rw [resolveEntry, if_pos hfr]
      rw [hsf2]
      exact mul_nonneg (hval s hs)
        (div_nonneg (le_max_left _ _) (le_of_lt htfpos))
    · have hsf2 : resolveEntry size viewport s =
          (s, some (resolveScalar s size viewport 1)) := by
        rw [resolveEntry, if_neg hfr]
      rw [hsf2]
      exact hfixv s hs
  · rw [if_neg htf] at h
    by_cases hany : ((dims.map (resolveEntry size viewport)).any fun sf =>
        sf.2.isNone) = true
    · rw [if_pos hany] at h
      cases h
    · rw [if_neg hany] at h
      cases h
      intro x hx
      rw [List.mem_filterMap] at hx
      obtain ⟨sf, hsf, hsnd⟩ := hx
      rw [List.mem_map] at hsf
      obtain ⟨s, hs, rfl⟩ := hsf
      by_cases hfr : s.isFraction = true
      · rw [resolveEntry, if_pos hfr] at hsnd
        cases hsnd
      · rw [resolveEntry, if_neg hfr] at hsnd
        exact Option.some.inj hsnd ▸ hfixv s hs

/-- Every returned length is a difference of floors of non-decreasing
partial sums, hence non-negative when widths and gutter are. -/
theorem pairUp_nonneg (g : ℤ) (rf : List ℚ) :
    ∀ (_ : ∀ x ∈ rf, 0 ≤ x) (c : ℚ) (h : ℤ), h ≤ ⌊c⌋ →
      ∀ p ∈ (List.zip
          (evens (h :: (accumulate c (interleave (g : ℚ) rf)).map fun q => ⌊q⌋))
          (odds (h :: (accumulate c (interleave (g : ℚ) rf)).map fun q => ⌊q⌋))).map
        (fun p => (p.1, p.2 - p.1)), 0 ≤ p.2 := by
  induction rf with
  | nil =>
    intro hrf c h hh p hp
    simp [interleave, accumulate, evens, odds] at hp
  | cons w ws ih =>
    intro hrf c h hh p hp
    have hacc : accumulate c (interleave (g : ℚ) (w :: ws)) =
        (c + w) :: ((c + w) + g) ::
          accumulate ((c + w) + g) (interleave (g : ℚ) ws) := rfl
    rw [hacc] at hp
    simp only [List.map_cons, evens, odds, List.zip_cons_cons, List.map_cons] at hp
    have hw : 0 ≤ w := hrf w (List.mem_cons_self w ws)
    rcases List.mem_cons.mp hp with rfl | hp2
    · have hfl : ⌊c⌋ ≤ ⌊c + w⌋ := Int.floor_le_floor (by linarith)
      simp only []
      omega
    · have ihh := ih (fun x hx => hrf x (List.mem_cons_of_mem w hx)) ((c + w) + g)
        ⌊(c + w) + g⌋ (le_refl _) p
      simp only [odds] at ihh
      exact ihh hp2

/-- All result lengths of the boundary pairing are non-negative for
non-negative widths and gutter. -/
theorem buildResults_nonneg (rf : List ℚ) (g : ℤ)
    (hrf : ∀ x ∈ rf, 0 ≤ x) : ∀ p ∈ buildResults rf g, 0 ≤ p.2 := by
  have h := pairUp_nonneg g rf hrf 0 0 (by simp)
  simpa [buildResults] using h

/-- C9 (amended): every length returned by `resolve` is non-negative
whenever the scalar magnitudes and fixed resolutions are non-negative,
the supplied minimums are non-negative, and the total space is at least
the total gutter.  (As originally stated — for every input — the claim
fails: with total smaller than the total gutter the shrink pass drives
widths negative, see the counterexample.) -/
theorem resolve_lengths_nonneg_amended (dimensions : List Scalar)
    (total gutter : ℤ) (size viewport : Size) (expand shrink : Bool)
    (minimums : Option (List ℤ)) (r : List (ℤ × ℤ))
    (hres : resolve dimensions total gutter size viewport expand shrink minimums
      = some r)
    (hval : ∀ s ∈ dimensions, 0 ≤ s.value)
    (hfixv : ∀ s ∈ dimensions, 0 ≤ resolveScalar s size viewport 1)
    (hmins : ∀ m ∈ minimums.getD [], (0 : ℤ) ≤ m)
    (hts : gutter * ((dimensions.length : ℤ) - 1) ≤ total) :
    ∀ p ∈ r, 0 ≤ p.2 := by
  simp only [resolve] at hres
  obtain ⟨rf, hrf, hmap⟩ := Option.bind_eq_some.mp hres
  obtain ⟨rf2, hrf2, rfl⟩ := Option.map_eq_some'.mp hmap
  have hts' : (0 : ℚ) ≤ ((total - gutter * ((dimensions.length : ℤ) - 1) : ℤ) : ℚ) := by
    have h0 : (0 : ℤ) ≤ total - gutter * ((dimensions.length : ℤ) - 1) := by linarith
    exact_mod_cast h0
  have hrfnn := resolveFractions_nonneg dimensions size viewport _ rf hrf hval hfixv
  have hrf2nn := applyExpandShrink_nonneg rf _ expand shrink minimums rf2 hrf2
    hts' hrfnn hmins
  exact buildResults_nonneg rf2 gutter hrf2nn

/-- Counterexample to C9 as stated: two fixed cells of width 5 shrunk
into total 0 with gutter 1 (total smaller than the total gutter) produce
the result `[(0, -1), (0, 0)]`, whose first length is negative. -/
theorem resolve_lengths_nonneg_cex :
    resolve [.cells 5, .cells 5] 0 1 ⟨80, 24⟩ ⟨80, 24⟩ false true none
        = some [(0, -1), (0, 0)] ∧ ¬(0 : ℤ) ≤ -1 := by
  refine ⟨?_, by norm_num⟩
  have h1 : ⌊(-1 : ℚ) / 2⌋ = -1 := by rw [Int.floor_eq_iff]; norm_num
  have h2 : ⌊(1 : ℚ) / 2⌋ = 0 := by rw [Int.floor_eq_iff]; norm_num
  have h3 : ⌊(0 : ℚ)⌋ = 0 := by rw [Int.floor_eq_iff]; norm_num
  have h4 : ⌊(1 : ℚ)⌋ = 1 := by rw [Int.floor_eq_iff]; norm_num
  norm_num [resolve, resolveEntry, resolveFractions, Scalar.isFraction, Scalar.value,
    resolveScalar, applyExpandShrink, finalShrink, buildResults, interleave,
    accumulate, evens, odds, h1, h2, h3, h4, List.filterMap_cons, List.filterMap_nil,
    List.cons_ne_nil]

/-- Witness for the amended C9 at a concrete shrink input. -/
theorem resolve_lengths_nonneg_amended_witness :
    resolve [.cells 5, .cells 5] 20 1 ⟨80, 24⟩ ⟨80, 24⟩ false true (some [3, 3])
        = some [(0, 5), (6, 5)] ∧
      (∀ p ∈ [((0 : ℤ), (5 : ℤ)), (6, 5)], 0 ≤ p.2) := by
  have hres : resolve [.cells 5, .cells 5] 20 1 ⟨80, 24⟩ ⟨80, 24⟩ false true
      (some [3, 3]) = some [(0, 5), (6, 5)] := by
    have h1 : ⌊(5 : ℚ)⌋ = 5 := by rw [Int.floor_eq_iff]; norm_num
    have h2 : ⌊(6 : ℚ)⌋ = 6 := by rw [Int.floor_eq_iff]; norm_num
    have h3 : ⌊(11 : ℚ)⌋ = 11 := by rw [Int.floor_eq_iff]; norm_num
    have h4 : ⌊(12 : ℚ)⌋ = 12 := by rw [Int.floor_eq_iff]; norm_num
    norm_num [resolve, resolveEntry, resolveFractions, Scalar.isFraction, Scalar.value,
      resolveScalar, applyExpandShrink, finalShrink, buildResults, interleave,
      accumulate, evens, odds, h1, h2, h3, h4, List.filterMap_cons, List.filterMap_nil,
      List.cons_ne_nil]
  refine ⟨hres, ?_⟩
  refine resolve_lengths_nonneg_amended [.cells 5, .cells 5] 20 1 ⟨80, 24⟩ ⟨80, 24⟩
    false true (some [3, 3]) [(0, 5), (6, 5)] hres ?_ ?_ ?_ ?_
  · intro s hs
    simp only [List.mem_cons, List.not_mem_nil, or_false] at hs
    rcases hs with rfl | rfl
    · norm_num [Scalar.value]
    · norm_num [Scalar.value]
  · intro s hs
    simp only [List.mem_cons, List.not_mem_nil, or_false] at hs
    rcases hs with rfl | rfl
    · norm_num [resolveScalar]
    · norm_num [resolveScalar]
  · intro m hm
    simp only [Option.getD_some, List.mem_cons, List.not_mem_nil, or_false] at hm
    rcases hm with rfl | rfl
    · norm_num
    · norm_num
  · norm_num
